import Mathlib

/- Verification of the K-Medoids (PAM) clustering core of pyclustering
   (src/ccore/include/pyclustering/cluster/kmedoids.hpp).

   The repository ships the class declaration header; the bodies of
   kmedoids::process, kmedoids::update_clusters, kmedoids::swap_medoids,
   kmedoids::calculate_swap_cost, kmedoids::find_appropriate_cluster and
   kmedoids::create_distance_calculator live in a translation unit that is
   not part of the source tree, so those operations are modelled from the
   specification (spec.md sections 4.1-4.4, 6, 7), keeping the header's
   names, constants and defaults.  Distances (C++ double) are modelled as
   rationals; the C++ "unset" second-best distance (initialised to the
   largest double) is modelled as the absent case of an Option. -/

namespace Pyclustering

/-- A distance calculator, as produced by kmedoids::create_distance_calculator:
given two object indices it returns their dissimilarity. -/
abbrev DistFun := ℕ → ℕ → ℚ

/-- Data representation used by the algorithm (kmedoids.hpp, enum kmedoids_data_t). -/
inductive kmedoids_data_t where
  | POINTS
  | DISTANCE_MATRIX
deriving DecidableEq

/-- Modelled from the spec: default tolerance stop condition
("library default of 0.001", spec section 6); declared as
kmedoids::DEFAULT_TOLERANCE in the header. -/
def DEFAULT_TOLERANCE : ℚ := 1 / 1000

/-- Modelled from the spec: default maximum number of iterations
("library default of 100", spec section 6); declared as
kmedoids::DEFAULT_ITERMAX in the header. -/
def DEFAULT_ITERMAX : ℕ := 100

/-- Modelled from the spec: sentinel cluster value returned by
find_appropriate_cluster when the queried point is itself a medoid
(kmedoids::OBJECT_ALREADY_CONTAINED; its numeric value, fixed in the missing
translation unit, is modelled as a std::size_t sentinel near the top of the
64-bit range, outside every real cluster index). -/
def OBJECT_ALREADY_CONTAINED : ℕ := 2 ^ 64 - 2

/-- Modelled from the spec: sentinel cluster index of an unset assignment
(kmedoids::INVALID_INDEX; its numeric value, fixed in the missing translation
unit, is modelled as the largest std::size_t value). -/
def INVALID_INDEX : ℕ := 2 ^ 64 - 1

/-- Modelled from the spec: the "nothing to swap" sentinel distance of 0
(kmedoids::NOTHING_TO_SWAP; spec section 3: a medoid's own cache entry uses a
sentinel distance of 0, and spec section 4.3: a swap is only applied when the
best swap cost is below 0). -/
def NOTHING_TO_SWAP : ℚ := 0

/-- The result of find_appropriate_cluster (kmedoids.hpp lines 79-87): a
cluster index defaulting to INVALID_INDEX and a distance to the corresponding
medoid defaulting to -1.0. -/
structure appropriate_cluster where
  m_index : ℕ := INVALID_INDEX
  m_distance_to_medoid : ℚ := -1
deriving DecidableEq

/-- A default-constructed appropriate_cluster, as produced by the
appropriate_cluster() = default constructor in the header. -/
def appropriate_cluster.mkDefault : appropriate_cluster := {}

/-- The default metric of the algorithm
(distance_metric_factory::euclidean_square in the header's constructor
default argument): sum of squared coordinate differences. -/
def euclidean_square (p q : List ℚ) : ℚ :=
  (List.zipWith (fun a b => (a - b) ^ 2) p q).sum

/-- Minimum of a list of rationals, absent for the empty list.  Models the
running minimum kept by the assignment loop of the implementation. -/
def minQ : List ℚ → Option ℚ
  | [] => none
  | x :: xs =>
    match minQ xs with
    | none => some x
    | some v => some (min x v)

/-- Index of the first occurrence of a value in a list of rationals.  Models
the first-encountered tie-breaking of the assignment loop: among positions
holding the minimum distance, the earliest one in medoid-set order wins. -/
def firstIdxEq : List ℚ → ℚ → ℕ
  | [], _ => 0
  | x :: xs, v => if x = v then 0 else firstIdxEq xs v + 1

/-- Position of the first occurrence of a value in a list of indices (used to
resolve a medoid to its own cluster position). -/
def posOf : List ℕ → ℕ → ℕ
  | [], _ => 0
  | x :: xs, v => if x = v then 0 else posOf xs v + 1

/-- Minimum of a rational and an optional rational; the absent case behaves
as the C++ "unset" second-best distance (largest double), which never wins a
comparison. -/
def minOpt (a : ℚ) : Option ℚ → ℚ
  | none => a
  | some b => min a b

/-- The everywhere-zero distance calculator (the degenerate dissimilarity of
spec section 7: all pairwise distances zero), used as a concrete calculator
in closed instances. -/
def constZeroCalc : DistFun := fun _ _ => 0

/-- Modelled from the spec: kmedoids::create_distance_calculator
(spec section 4.1).  Point mode computes the configured metric between the
two coordinate vectors on every call; matrix mode reads the precomputed
matrix entry at the index pair. -/
def create_distance_calculator (t : kmedoids_data_t)
    (metric : List ℚ → List ℚ → ℚ) (data : List (List ℚ)) : DistFun :=
  match t with
  | kmedoids_data_t.POINTS => fun i j => metric (data.getD i []) (data.getD j [])
  | kmedoids_data_t.DISTANCE_MATRIX => fun i j => (data.getD i []).getD j 0

/-- The scratch state of one process call: the medoid sequence, the label of
every object (its cluster position) and the two parallel per-object distance
caches m_distance_first_medoid / m_distance_second_medoid of the header. -/
structure KState where
  medoids : List ℕ
  labels : List ℕ
  dFirst : List ℚ
  dSecond : List (Option ℚ)
deriving DecidableEq

/-- Modelled from the spec: kmedoids::find_appropriate_cluster
(spec section 4.2 and the header's documentation).  If the point is a medoid
the OBJECT_ALREADY_CONTAINED sentinel is returned with the NOTHING_TO_SWAP
sentinel distance; otherwise the nearest medoid's cluster position (ties
broken by the first position encountered in medoid-set order), the distance
to it, and the minimum distance excluding that nearest position are
returned. -/
def find_appropriate_cluster (d : DistFun) (M : List ℕ) (o : ℕ) :
    ℕ × ℚ × Option ℚ :=
  if o ∈ M then (OBJECT_ALREADY_CONTAINED, NOTHING_TO_SWAP, none)
  else
    let ds := M.map (d o)
    match minQ ds with
    | none => (appropriate_cluster.mkDefault.m_index,
               appropriate_cluster.mkDefault.m_distance_to_medoid, none)
    | some f =>
      let idx := firstIdxEq ds f
      (idx, f, minQ (ds.eraseIdx idx))

/-- Modelled from the spec: the per-object outcome of one assignment pass
(spec sections 3, 4.2).  A medoid is recorded as contained in its own
cluster (every object belongs to exactly one cluster) with the sentinel
distance 0 and an unset second-best distance; any other object gets the
nearest cluster position and the two cached distances from
find_appropriate_cluster. -/
def assign (d : DistFun) (M : List ℕ) (o : ℕ) : ℕ × ℚ × Option ℚ :=
  if o ∈ M then (posOf M o, NOTHING_TO_SWAP, none)
  else find_appropriate_cluster d M o

/-- Modelled from the spec: kmedoids::update_clusters (spec section 4.2).
Recomputes every object's label and the two distance caches from the current
medoids, and returns the new state together with the maximum change of the
assigned-medoid distance against the previous caches (the convergence
signal). -/
def update_clusters (d : DistFun) (n : ℕ) (s : KState) : KState × ℚ :=
  let asg := (List.range n).map (fun o => assign d s.medoids o)
  let newFirst := asg.map (fun a => a.2.1)
  let change := ((List.range n).map
    (fun o => |newFirst.getD o 0 - s.dFirst.getD o 0|)).foldl max 0
  (⟨s.medoids, asg.map (fun a => a.1), newFirst, asg.map (fun a => a.2.2)⟩,
   change)

/-- Modelled from the spec: kmedoids::calculate_swap_cost (spec section 4.3).
Net change of the total dissimilarity caused by replacing the medoid of
cluster clIdx with the candidate: the candidate's own contribution becomes
0 (it loses its previous assignment distance); an object of the replaced
cluster is re-priced at the minimum of its distance to the candidate and its
cached second-best distance; any other object is re-priced at its distance
to the candidate only when that is an improvement. -/
def calculate_swap_cost (d : DistFun) (n : ℕ) (s : KState)
    (cand : ℕ) (clIdx : ℕ) : ℚ :=
  ((List.range n).map (fun o =>
    if o = cand then 0
    else if s.labels.getD o 0 = clIdx then
      minOpt (d o cand) (s.dSecond.getD o none) - s.dFirst.getD o 0
    else if d o cand < s.dFirst.getD o 0 then d o cand - s.dFirst.getD o 0
    else 0)).sum - s.dFirst.getD cand 0

/-- The candidate grid of the swap search: every (non-medoid object,
cluster position) pair, candidates in dataset order, clusters in medoid-set
order (spec section 4.3). -/
def swapPairs (n : ℕ) (M : List ℕ) : List (ℕ × ℕ) :=
  ((List.range n).filter (fun c => decide (c ∉ M))).flatMap
    (fun c => (List.range M.length).map (fun m => (c, m)))

/-- One step of the running-minimum selection over the candidate grid: the
first-encountered pair of strictly smaller cost replaces the current best. -/
def bestStep (f : ℕ × ℕ → ℚ) (acc : Option (ℕ × ℕ × ℚ)) (p : ℕ × ℕ) :
    Option (ℕ × ℕ × ℚ) :=
  match acc with
  | none => some (p.1, p.2, f p)
  | some (c0, m0, b) => if f p < b then some (p.1, p.2, f p)
                        else some (c0, m0, b)

/-- Modelled from the spec: kmedoids::swap_medoids (spec section 4.3).
Evaluates the swap cost of every (non-medoid candidate, cluster) pair,
selects the first-encountered pair of minimum cost, commits the swap exactly
when that minimum is below 0, and returns the resulting state with the best
cost found (NOTHING_TO_SWAP when the candidate grid is empty). -/
def swap_medoids (d : DistFun) (n : ℕ) (s : KState) : KState × ℚ :=
  let best := (swapPairs n s.medoids).foldl
    (bestStep (fun p => calculate_swap_cost d n s p.1 p.2)) none
  match best with
  | none => (s, NOTHING_TO_SWAP)
  | some (c, m, cost) =>
    if cost < 0 then ({ s with medoids := s.medoids.set m c }, cost)
    else (s, cost)

/-- Modelled from the spec: the iteration loop of kmedoids::process
(spec section 4.4).  Each iteration runs the assignment pass and then the
swap search; the loop stops converged when an iteration applies no swap and
the maximum assignment-distance change is below the tolerance, and stops
with the iteration budget exhausted otherwise.  Returns the final state, the
number of iterations performed and the convergence flag. -/
def kmedoidsLoop (d : DistFun) (n : ℕ) (tol : ℚ) :
    ℕ → KState → KState × ℕ × Bool
  | 0, s => (s, 0, false)
  | Nat.succ fuel, s =>
    let u := update_clusters d n s
    let w := swap_medoids d n u.1
    if w.2 < 0 ∨ tol ≤ u.2 then
      let r := kmedoidsLoop d n tol fuel w.1
      (r.1, r.2.1 + 1, r.2.2)
    else (w.1, 1, true)

/-- The clustering result of one process call (kmedoids_data of the header):
cluster membership lists, the final medoid sequence, the achieved total
dissimilarity, the number of iterations performed and the convergence
status flag (spec sections 3, 6, 7). -/
structure KmedoidsResult where
  clusters : List (List ℕ)
  medoids : List ℕ
  total_deviation : ℚ
  iterations : ℕ
  converged : Bool
deriving DecidableEq

/-- The clustering result of the one-object, one-medoid run, used as a
closed instance. -/
def singletonResult : KmedoidsResult :=
  { clusters := [[0]], medoids := [0], total_deviation := 0,
    iterations := 1, converged := true }

/-- Materialisation of the cluster membership lists from the labels: cluster
j collects every object whose label is j. -/
def makeClusters (n : ℕ) (k : ℕ) (labels : List ℕ) : List (List ℕ) :=
  (List.range k).map (fun j => (List.range n).filter (fun o => labels.getD o k = j))

/-- Modelled from the spec: the validation performed at the start of
kmedoids::process (spec sections 4.4, 6, 7): non-empty dataset, non-empty
initial medoid sequence, every medoid index within the dataset's range, no
duplicate medoid indices, and in DISTANCE_MATRIX mode a square input. -/
def validInput (ptype : kmedoids_data_t) (data : List (List ℚ))
    (initialMedoids : List ℕ) : Prop :=
  data ≠ [] ∧ initialMedoids ≠ [] ∧
  (∀ m ∈ initialMedoids, m < data.length) ∧ initialMedoids.Nodup ∧
  (ptype = kmedoids_data_t.DISTANCE_MATRIX →
    ∀ row ∈ data, row.length = data.length)

instance (ptype : kmedoids_data_t) (data : List (List ℚ))
    (initialMedoids : List ℕ) :
    Decidable (validInput ptype data initialMedoids) := by
  unfold validInput; infer_instance

/-- The validated part of kmedoids::process: run the iteration loop over a
distance calculator from fresh scratch state and materialise the clustering
result with a final assignment pass (spec section 4.4). -/
def runKmedoids (d : DistFun) (n : ℕ) (initialMedoids : List ℕ)
    (tolerance : ℚ) (itermax : ℕ) : KmedoidsResult :=
  let s0 : KState :=
    ⟨initialMedoids, List.replicate n 0, List.replicate n 0,
     List.replicate n none⟩
  let r := kmedoidsLoop d n tolerance itermax s0
  let sF := (update_clusters d n r.1).1
  { clusters := makeClusters n sF.medoids.length sF.labels,
    medoids := sF.medoids,
    total_deviation := sF.dFirst.sum,
    iterations := r.2.1,
    converged := r.2.2 }

/-- Modelled from the spec: kmedoids::process (spec sections 4.4, 6, 7).
Rejects an invalid configuration before any iteration runs, producing no
result; otherwise builds the distance calculator, runs the iteration loop
from fresh scratch state, and materialises the clustering result with a
final assignment pass. -/
def process (metric : List ℚ → List ℚ → ℚ) (ptype : kmedoids_data_t)
    (data : List (List ℚ)) (initialMedoids : List ℕ)
    (tolerance : ℚ) (itermax : ℕ) : Option KmedoidsResult :=
  if validInput ptype data initialMedoids then
    some (runKmedoids (create_distance_calculator ptype metric data)
      data.length initialMedoids tolerance itermax)
  else none

/-- The total clustering cost of a medoid sequence: the sum over all objects
of the distance to their assigned medoid (0 for an object that is itself a
medoid). -/
def clusterCost (d : DistFun) (n : ℕ) (M : List ℕ) : ℚ :=
  ((List.range n).map (fun o => (assign d M o).2.1)).sum

/-- The state produced by an assignment pass over the medoid sequence M:
labels and both distance caches freshly recomputed by assign. -/
def syncState (d : DistFun) (n : ℕ) (M : List ℕ) : KState :=
  ⟨M, (List.range n).map (fun o => (assign d M o).1),
   (List.range n).map (fun o => (assign d M o).2.1),
   (List.range n).map (fun o => (assign d M o).2.2)⟩

/- ------------------------------------------------------------------ -/
/- Helper lemmas about the list utilities of the embedding.            -/
/- ------------------------------------------------------------------ -/

theorem minQ_eq_none_iff (l : List ℚ) : minQ l = none ↔ l = [] := by
  cases l with
  | nil => simp [minQ]
  | cons x xs =>
    simp only [minQ]
    cases h : minQ xs <;> simp

theorem minQ_isSome (l : List ℚ) (h : l ≠ []) : ∃ v, minQ l = some v := by
  cases hm : minQ l with
  | none => exact absurd ((minQ_eq_none_iff l).1 hm) h
  | some v => exact ⟨v, rfl⟩

theorem minQ_le (l : List ℚ) : ∀ (v : ℚ), minQ l = some v → ∀ x ∈ l, v ≤ x := by
  induction l with
  | nil => intro v h x hx; cases hx
  | cons y ys ih =>
    intro v h x hx
    simp only [minQ] at h
    cases hm : minQ ys with
    | none =>
      rw [hm] at h
      have hys : ys = [] := (minQ_eq_none_iff ys).1 hm
      subst hys
      have hv : v = y := by simpa using h.symm
      have hx' : x = y := by simpa using hx
      simp [hv, hx']
    | some w =>
      rw [hm] at h
      have hv : v = min y w := by simpa using h.symm
      rcases List.mem_cons.1 hx with hxy | hx'
      · rw [hxy, hv]; exact min_le_left y w
      · rw [hv]; exact le_trans (min_le_right y w) (ih w hm x hx')

theorem minQ_mem (l : List ℚ) : ∀ (v : ℚ), minQ l = some v → v ∈ l := by
  induction l with
  | nil => intro v h; simp [minQ] at h
  | cons y ys ih =>
    intro v h
    simp only [minQ] at h
    cases hm : minQ ys with
    | none =>
      rw [hm] at h
      simp at h
      simp [h]
    | some w =>
      rw [hm] at h
      have hv : v = min y w := by simpa using h.symm
      rcases min_cases y w with ⟨he, _⟩ | ⟨he, _⟩
      · simp [hv, he]
      · have hvw : v = w := by rw [hv, he]
        exact List.mem_cons_of_mem y (ih v (by rw [hm, hvw]))

theorem firstIdxEq_lt (l : List ℚ) (v : ℚ) (h : v ∈ l) :
    firstIdxEq l v < l.length := by
  induction l with
  | nil => cases h
  | cons x xs ih =>
    by_cases hx : x = v
    · simp [firstIdxEq, hx]
    · rcases List.mem_cons.1 h with rfl | h'
      · exact absurd rfl hx
      · simpa [firstIdxEq, hx, Nat.succ_lt_succ_iff] using ih h'

theorem firstIdxEq_get (l : List ℚ) (v : ℚ) (h : v ∈ l) :
    l.get ⟨firstIdxEq l v, firstIdxEq_lt l v h⟩ = v := by
  induction l with
  | nil => cases h
  | cons x xs ih =>
    by_cases hx : x = v
    · simp [firstIdxEq, hx]
    · rcases List.mem_cons.1 h with rfl | h'
      · exact absurd rfl hx
      · simpa [firstIdxEq, hx] using ih h'

theorem firstIdxEq_first (l : List ℚ) (v : ℚ) (j : ℕ)
    (hj : j < l.length) (hlt : j < firstIdxEq l v) :
    l.get ⟨j, hj⟩ ≠ v := by
  induction l generalizing j with
  | nil => cases hj
  | cons x xs ih =>
    by_cases hx : x = v
    · simp [firstIdxEq, hx] at hlt
    · cases j with
      | zero => simpa using hx
      | succ j' =>
        simp only [firstIdxEq, hx, if_false] at hlt
        exact ih j' (by simpa using hj) (by omega)

theorem posOf_lt (l : List ℕ) (v : ℕ) (h : v ∈ l) : posOf l v < l.length := by
  induction l with
  | nil => cases h
  | cons x xs ih =>
    by_cases hx : x = v
    · simp [posOf, hx]
    · rcases List.mem_cons.1 h with rfl | h'
      · exact absurd rfl hx
      · simpa [posOf, hx, Nat.succ_lt_succ_iff] using ih h'

theorem posOf_get (l : List ℕ) (v : ℕ) (h : v ∈ l) :
    l.get ⟨posOf l v, posOf_lt l v h⟩ = v := by
  induction l with
  | nil => cases h
  | cons x xs ih =>
    by_cases hx : x = v
    · simp [posOf, hx]
    · rcases List.mem_cons.1 h with rfl | h'
      · exact absurd rfl hx
      · simpa [posOf, hx] using ih h'

theorem posOf_get_self (l : List ℕ) (hnd : l.Nodup) (j : ℕ)
    (hj : j < l.length) : posOf l (l.get ⟨j, hj⟩) = j := by
  induction l generalizing j with
  | nil => cases hj
  | cons x xs ih =>
    rcases List.nodup_cons.1 hnd with ⟨hx, hnd'⟩
    cases j with
    | zero => simp [posOf]
    | succ j' =>
      have hj' : j' < xs.length := by simpa using hj
      have hmem : xs.get ⟨j', hj'⟩ ∈ xs := List.get_mem xs j' hj'
      have hne : x ≠ xs.get ⟨j', hj'⟩ := fun he => hx (he ▸ hmem)
      have hg : (x :: xs).get ⟨j' + 1, hj⟩ = xs.get ⟨j', hj'⟩ := rfl
      rw [hg]
      simp only [posOf]
      rw [if_neg hne, ih hnd' j' hj']

theorem mem_eraseIdx_witness (l : List ℚ) (i : ℕ) (x : ℚ)
    (h : x ∈ l.eraseIdx i) :
    ∃ j, ∃ hj : j < l.length, j ≠ i ∧ l.get ⟨j, hj⟩ = x := by
  induction l generalizing i with
  | nil => simp [List.eraseIdx] at h
  | cons y ys ih =>
    cases i with
    | zero =>
      simp only [List.eraseIdx] at h
      rcases List.mem_iff_get.1 h with ⟨⟨j, hj⟩, hg⟩
      exact ⟨j + 1, by simpa using Nat.succ_lt_succ hj, by omega, by simpa using hg⟩
    | succ i' =>
      simp only [List.eraseIdx] at h
      rcases List.mem_cons.1 h with rfl | h'
      · exact ⟨0, by simp, by omega, rfl⟩
      · rcases ih i' h' with ⟨j, hj, hne, hg⟩
        exact ⟨j + 1, by simpa using Nat.succ_lt_succ hj, by omega, by simpa using hg⟩

theorem getD_map_range {α : Type} (f : ℕ → α) (n o : ℕ) (dflt : α)
    (h : o < n) : ((List.range n).map f).getD o dflt = f o := by
  rw [List.getD_eq_getElem _ _ (by simpa using h)]
  simp

theorem sum_map_range_eq (f : ℕ → ℚ) (n : ℕ) :
    ((List.range n).map f).sum = ∑ o ∈ Finset.range n, f o := by
  induction n with
  | zero => simp
  | succ n ih => simp [List.range_succ, Finset.sum_range_succ, ih]

/- ------------------------------------------------------------------ -/
/- Characterisation of one assignment (spec section 4.2).              -/
/- ------------------------------------------------------------------ -/

theorem assign_of_mem (d : DistFun) (M : List ℕ) (o : ℕ) (h : o ∈ M) :
    assign d M o = (posOf M o, NOTHING_TO_SWAP, none) := by
  simp [assign, h]

theorem assign_of_not_mem (d : DistFun) (M : List ℕ) (o : ℕ)
    (h : o ∉ M) (hM : M ≠ []) :
    ∃ f, minQ (M.map (d o)) = some f ∧
      assign d M o = (firstIdxEq (M.map (d o)) f, f,
        minQ ((M.map (d o)).eraseIdx (firstIdxEq (M.map (d o)) f))) := by
  obtain ⟨f, hf⟩ := minQ_isSome (M.map (d o)) (by simpa using hM)
  exact ⟨f, hf, by simp [assign, h, find_appropriate_cluster, hf]⟩

theorem assign_of_nil (d : DistFun) (o : ℕ) :
    assign d [] o = (appropriate_cluster.mkDefault.m_index,
      appropriate_cluster.mkDefault.m_distance_to_medoid, none) := by
  simp [assign, find_appropriate_cluster, minQ]

theorem assign_fst_le (d : DistFun) (M : List ℕ) (o : ℕ) (h : o ∉ M)
    (m : ℕ) (hm : m ∈ M) : (assign d M o).2.1 ≤ d o m := by
  have hM : M ≠ [] := by intro he; rw [he] at hm; cases hm
  obtain ⟨f, hf, he⟩ := assign_of_not_mem d M o h hM
  rw [he]
  exact minQ_le _ f hf _ (List.mem_map_of_mem _ hm)

theorem assign_idx_lt (d : DistFun) (M : List ℕ) (o : ℕ) (hM : M ≠ []) :
    (assign d M o).1 < M.length := by
  by_cases h : o ∈ M
  · rw [assign_of_mem d M o h]; exact posOf_lt M o h
  · obtain ⟨f, hf, he⟩ := assign_of_not_mem d M o h hM
    rw [he]
    have hmem : f ∈ M.map (d o) := minQ_mem _ f hf
    have := firstIdxEq_lt _ f hmem
    simpa using this

theorem assign_fst_achieved (d : DistFun) (M : List ℕ) (o : ℕ)
    (h : o ∉ M) (hM : M ≠ []) (hj : (assign d M o).1 < M.length) :
    d o (M.get ⟨(assign d M o).1, hj⟩) = (assign d M o).2.1 := by
  obtain ⟨f, hf, he⟩ := assign_of_not_mem d M o h hM
  have hmem : f ∈ M.map (d o) := minQ_mem _ f hf
  have hidx : (assign d M o).1 = firstIdxEq (M.map (d o)) f := by rw [he]
  have hlt : firstIdxEq (M.map (d o)) f < (M.map (d o)).length :=
    firstIdxEq_lt _ f hmem
  have hget := firstIdxEq_get (M.map (d o)) f hmem
  have hval : (assign d M o).2.1 = f := by rw [he]
  rw [hval]
  rw [← hget]
  simp [List.get_eq_getElem, hidx]

theorem assign_snd_achieved (d : DistFun) (M : List ℕ) (o : ℕ)
    (h : o ∉ M) (s : ℚ) (hs : (assign d M o).2.2 = some s) :
    ∃ j, ∃ hj : j < M.length, j ≠ (assign d M o).1 ∧
      d o (M.get ⟨j, hj⟩) = s := by
  by_cases hM : M = []
  · subst hM
    rw [assign_of_nil d o] at hs
    cases hs
  obtain ⟨f, hf, he⟩ := assign_of_not_mem d M o h hM
  rw [he] at hs
  simp only at hs
  have hmem : s ∈ (M.map (d o)).eraseIdx (firstIdxEq (M.map (d o)) f) :=
    minQ_mem _ s hs
  rcases mem_eraseIdx_witness _ _ _ hmem with ⟨j, hjlen, hne, hget⟩
  have hjM : j < M.length := by simpa using hjlen
  refine ⟨j, hjM, ?_, ?_⟩
  · rw [he]; simpa using hne
  · rw [← hget]; simp [List.get_eq_getElem]

theorem assign_fst_le_snd (d : DistFun) (M : List ℕ) (o : ℕ) (s : ℚ)
    (hs : (assign d M o).2.2 = some s) : (assign d M o).2.1 ≤ s := by
  by_cases h : o ∈ M
  · rw [assign_of_mem d M o h] at hs; cases hs
  by_cases hM : M = []
  · subst hM; rw [assign_of_nil d o] at hs; cases hs
  obtain ⟨f, hf, he⟩ := assign_of_not_mem d M o h hM
  rw [he] at hs ⊢
  simp only at hs ⊢
  have hmem : s ∈ (M.map (d o)).eraseIdx (firstIdxEq (M.map (d o)) f) :=
    minQ_mem _ s hs
  rcases mem_eraseIdx_witness _ _ _ hmem with ⟨j, hjlen, hne, hget⟩
  have : (M.map (d o)).get ⟨j, hjlen⟩ ∈ M.map (d o) := List.get_mem _ _ _
  exact hget ▸ minQ_le _ f hf _ this

theorem assign_nonneg (d : DistFun) (M : List ℕ) (o : ℕ)
    (hd : ∀ i j, 0 ≤ d i j) (hM : M ≠ []) : 0 ≤ (assign d M o).2.1 := by
  by_cases h : o ∈ M
  · rw [assign_of_mem d M o h]; simp [NOTHING_TO_SWAP]
  obtain ⟨f, hf, he⟩ := assign_of_not_mem d M o h hM
  rw [he]
  have hmem : f ∈ M.map (d o) := minQ_mem _ f hf
  rcases List.mem_map.1 hmem with ⟨m, _, hfm⟩
  simpa [← hfm] using hd o m

theorem assign_fst_first (d : DistFun) (M : List ℕ) (o : ℕ) (h : o ∉ M)
    (j : ℕ) (hj : j < M.length)
    (hval : d o (M.get ⟨j, hj⟩) = (assign d M o).2.1) :
    (assign d M o).1 ≤ j := by
  have hM : M ≠ [] := by
    intro heq; subst heq; cases hj
  obtain ⟨f, hf, he⟩ := assign_of_not_mem d M o h hM
  by_contra hlt
  push_neg at hlt
  have hidx : (assign d M o).1 = firstIdxEq (M.map (d o)) f := by rw [he]
  have hjd : j < (M.map (d o)).length := by simpa using hj
  have hne := firstIdxEq_first (M.map (d o)) f j hjd (by rw [← hidx]; exact hlt)
  apply hne
  have hget : (M.map (d o)).get ⟨j, hjd⟩ = d o (M.get ⟨j, hj⟩) := by
    simp [List.get_eq_getElem]
  rw [hget, hval, he]

/- ------------------------------------------------------------------ -/
/- Lemmas about replacing one element of the medoid sequence.          -/
/- ------------------------------------------------------------------ -/

theorem get_set_same (l : List ℕ) (i a : ℕ) (hi : i < l.length) :
    (l.set i a).get ⟨i, by simpa using hi⟩ = a := by
  simp [List.get_eq_getElem, List.getElem_set]

theorem get_set_other (l : List ℕ) (i a j : ℕ) (hij : j ≠ i)
    (hj : j < l.length) :
    (l.set i a).get ⟨j, by simpa using hj⟩ = l.get ⟨j, hj⟩ := by
  simp [List.get_eq_getElem, List.getElem_set, (Ne.symm hij : i ≠ j)]

theorem mem_set_self (l : List ℕ) (i a : ℕ) (hi : i < l.length) :
    a ∈ l.set i a := by
  have h := List.get_mem (l.set i a) i (by simpa using hi)
  rwa [get_set_same l i a hi] at h

theorem mem_set_of_get (l : List ℕ) (i a j : ℕ) (hj : j < l.length)
    (hij : j ≠ i) : l.get ⟨j, hj⟩ ∈ l.set i a := by
  rw [← get_set_other l i a j hij hj]
  exact List.get_mem _ _ _

theorem eq_or_mem_of_mem_set (l : List ℕ) (i a x : ℕ)
    (h : x ∈ l.set i a) : x = a ∨ x ∈ l := by
  rcases List.mem_iff_get.1 h with ⟨⟨j, hjs⟩, hg⟩
  have hjl : j < l.length := by simpa using hjs
  by_cases hji : j = i
  · left
    rw [← hg]
    subst hji
    exact get_set_same l j a hjl
  · right
    rw [← hg, get_set_other l i a j hji hjl]
    exact List.get_mem _ _ _

theorem not_mem_set (l : List ℕ) (hnd : l.Nodup) (i : ℕ)
    (hi : i < l.length) (a : ℕ) (ha : a ≠ l.get ⟨i, hi⟩) :
    l.get ⟨i, hi⟩ ∉ l.set i a := by
  intro hmem
  rcases List.mem_iff_get.1 hmem with ⟨⟨j, hjs⟩, hg⟩
  have hjl : j < l.length := by simpa using hjs
  by_cases hji : j = i
  · subst hji
    rw [get_set_same l j a hjl] at hg
    exact ha hg
  · rw [get_set_other l i a j hji hjl] at hg
    have hget : l.get ⟨j, hjl⟩ = l.get ⟨i, hi⟩ := hg
    have : (⟨j, hjl⟩ : Fin l.length) = ⟨i, hi⟩ :=
      (List.Nodup.get_inj_iff hnd).1 hget
    exact hji (by simpa using congrArg Fin.val this)

theorem nodup_set (l : List ℕ) (hnd : l.Nodup) (i a : ℕ) (ha : a ∉ l) :
    (l.set i a).Nodup := by
  rw [List.nodup_iff_injective_get] at hnd ⊢
  intro ⟨j1, hj1⟩ ⟨j2, hj2⟩ hg
  have hj1l : j1 < l.length := by simpa using hj1
  have hj2l : j2 < l.length := by simpa using hj2
  by_cases h1 : j1 = i <;> by_cases h2 : j2 = i
  · subst h1; subst h2; rfl
  · exfalso
    subst h1
    rw [get_set_same l j1 a hj1l, get_set_other l j1 a j2 h2 hj2l] at hg
    exact ha (hg ▸ List.get_mem _ _ _)
  · exfalso
    subst h2
    rw [get_set_same l j2 a hj2l, get_set_other l j2 a j1 h1 hj1l] at hg
    exact ha (hg.symm ▸ List.get_mem _ _ _)
  · rw [get_set_other l i a j1 h1 hj1l, get_set_other l i a j2 h2 hj2l] at hg
    have := hnd hg
    exact Fin.ext (by simpa using congrArg Fin.val this)

/- ------------------------------------------------------------------ -/
/- The assignment pass and the synchronised state.                     -/
/- ------------------------------------------------------------------ -/

theorem update_clusters_fst (d : DistFun) (n : ℕ) (s : KState) :
    (update_clusters d n s).1 = syncState d n s.medoids := by
  simp [update_clusters, syncState, List.map_map, Function.comp]

theorem syncState_labels_getD (d : DistFun) (n : ℕ) (M : List ℕ) (o : ℕ)
    (h : o < n) (dflt : ℕ) :
    (syncState d n M).labels.getD o dflt = (assign d M o).1 :=
  getD_map_range _ n o dflt h

theorem syncState_dFirst_getD (d : DistFun) (n : ℕ) (M : List ℕ) (o : ℕ)
    (h : o < n) (dflt : ℚ) :
    (syncState d n M).dFirst.getD o dflt = (assign d M o).2.1 :=
  getD_map_range _ n o dflt h

theorem syncState_dSecond_getD (d : DistFun) (n : ℕ) (M : List ℕ) (o : ℕ)
    (h : o < n) (dflt : Option ℚ) :
    (syncState d n M).dSecond.getD o dflt = (assign d M o).2.2 :=
  getD_map_range _ n o dflt h

theorem syncState_medoids (d : DistFun) (n : ℕ) (M : List ℕ) :
    (syncState d n M).medoids = M := rfl

/- ------------------------------------------------------------------ -/
/- The swap search: selection of the best pair (spec section 4.3).     -/
/- ------------------------------------------------------------------ -/

theorem foldl_bestStep_some (f : ℕ × ℕ → ℚ) (l : List (ℕ × ℕ)) :
    ∀ (c0 m0 : ℕ) (b0 : ℚ),
    ∃ c m b, l.foldl (bestStep f) (some (c0, m0, b0)) = some (c, m, b) ∧
      ((c, m) = (c0, m0) ∧ b = b0 ∨ (c, m) ∈ l ∧ b = f (c, m)) ∧
      b ≤ b0 ∧ ∀ p ∈ l, b ≤ f p := by
  induction l with
  | nil =>
    intro c0 m0 b0
    exact ⟨c0, m0, b0, rfl, Or.inl ⟨rfl, rfl⟩, le_refl _, by simp⟩
  | cons p l ih =>
    intro c0 m0 b0
    by_cases hlt : f p < b0
    · have hstep : (p :: l).foldl (bestStep f) (some (c0, m0, b0)) =
          l.foldl (bestStep f) (some (p.1, p.2, f p)) := by
        simp [bestStep, hlt]
      rcases ih p.1 p.2 (f p) with ⟨c, m, b, hres, hchar, hle, hall⟩
      refine ⟨c, m, b, by rw [hstep]; exact hres, ?_,
        le_of_lt (lt_of_le_of_lt hle hlt), ?_⟩
      · rcases hchar with ⟨hp, hb⟩ | ⟨hmem, hb⟩
        · right
          constructor
          · rw [hp, Prod.mk.eta]; exact List.mem_cons_self p l
          · rw [hb, hp, Prod.mk.eta]
        · right; exact ⟨List.mem_cons_of_mem p hmem, hb⟩
      · intro q hq
        rcases List.mem_cons.1 hq with rfl | hq'
        · exact hle
        · exact hall q hq'
    · have hstep : (p :: l).foldl (bestStep f) (some (c0, m0, b0)) =
          l.foldl (bestStep f) (some (c0, m0, b0)) := by
        simp [bestStep, hlt]
      rcases ih c0 m0 b0 with ⟨c, m, b, hres, hchar, hle, hall⟩
      refine ⟨c, m, b, by rw [hstep]; exact hres, ?_, hle, ?_⟩
      · rcases hchar with ⟨hp, hb⟩ | ⟨hmem, hb⟩
        · left; exact ⟨hp, hb⟩
        · right; exact ⟨List.mem_cons_of_mem p hmem, hb⟩
      · intro q hq
        rcases List.mem_cons.1 hq with rfl | hq'
        · exact le_trans hle (le_of_not_lt hlt)
        · exact hall q hq'

theorem foldl_bestStep_char (f : ℕ × ℕ → ℚ) (l : List (ℕ × ℕ)) :
    l = [] ∧ l.foldl (bestStep f) none = none ∨
    ∃ c m b, l.foldl (bestStep f) none = some (c, m, b) ∧ (c, m) ∈ l ∧
      b = f (c, m) ∧ ∀ p ∈ l, b ≤ f p := by
  cases l with
  | nil => left; exact ⟨rfl, rfl⟩
  | cons p l =>
    right
    have hstep : (p :: l).foldl (bestStep f) none =
        l.foldl (bestStep f) (some (p.1, p.2, f p)) := by
      simp [bestStep]
    rcases foldl_bestStep_some f l p.1 p.2 (f p) with
      ⟨c, m, b, hres, hchar, hle, hall⟩
    refine ⟨c, m, b, by rw [hstep]; exact hres, ?_, ?_, ?_⟩
    · rcases hchar with ⟨hp, _⟩ | ⟨hmem, _⟩
      · rw [hp, Prod.mk.eta]; exact List.mem_cons_self p l
      · exact List.mem_cons_of_mem p hmem
    · rcases hchar with ⟨hp, hb⟩ | ⟨_, hb⟩
      · rw [hb, hp, Prod.mk.eta]
      · exact hb
    · intro q hq
      rcases List.mem_cons.1 hq with rfl | hq'
      · exact hle
      · exact hall q hq'

theorem mem_swapPairs (n : ℕ) (M : List ℕ) (c m : ℕ) :
    (c, m) ∈ swapPairs n M ↔ c < n ∧ c ∉ M ∧ m < M.length := by
  simp only [swapPairs, List.mem_flatMap, List.mem_map, List.mem_filter,
    List.mem_range, decide_eq_true_eq, Prod.mk.injEq]
  constructor
  · rintro ⟨a, ⟨⟨ha, hnm⟩, m', hm', rfl, rfl⟩⟩
    exact ⟨ha, hnm, hm'⟩
  · rintro ⟨hc, hnm, hm⟩
    exact ⟨c, ⟨hc, hnm⟩, m, hm, rfl, rfl⟩

theorem swap_medoids_eq (d : DistFun) (n : ℕ) (s : KState) :
    (swapPairs n s.medoids = [] ∧ swap_medoids d n s = (s, NOTHING_TO_SWAP)) ∨
    ∃ c m b, (c, m) ∈ swapPairs n s.medoids ∧
      b = calculate_swap_cost d n s c m ∧
      (∀ p ∈ swapPairs n s.medoids, b ≤ calculate_swap_cost d n s p.1 p.2) ∧
      ((b < 0 ∧
        swap_medoids d n s = ({ s with medoids := s.medoids.set m c }, b)) ∨
       (0 ≤ b ∧ swap_medoids d n s = (s, b))) := by
  rcases foldl_bestStep_char (fun p => calculate_swap_cost d n s p.1 p.2)
      (swapPairs n s.medoids) with ⟨hnil, hres⟩ | ⟨c, m, b, hres, hmem, hb, hall⟩
  · left
    refine ⟨hnil, ?_⟩
    unfold swap_medoids
    rw [hres]
  · right
    refine ⟨c, m, b, hmem, hb, hall, ?_⟩
    by_cases hneg : b < 0
    · left
      refine ⟨hneg, ?_⟩
      unfold swap_medoids
      rw [hres]
      simp [hneg]
    · right
      refine ⟨le_of_not_lt hneg, ?_⟩
      unfold swap_medoids
      rw [hres]
      simp [hneg]

/- ------------------------------------------------------------------ -/
/- The swap cost bounds the true cost change (spec section 4.3: the    -/
/- cached second-best distance is a safe upper bound on the best       -/
/- remaining standing medoid).                                         -/
/- ------------------------------------------------------------------ -/

theorem swap_pointwise_bound (d : DistFun) (M : List ℕ) (c mIdx o : ℕ)
    (hd : ∀ i j, 0 ≤ d i j) (hnd : M.Nodup) (hc : c ∉ M)
    (hm : mIdx < M.length) :
    (assign d (M.set mIdx c) o).2.1 ≤
      (if o = c then 0
       else if (assign d M o).1 = mIdx then
         minOpt (d o c) ((assign d M o).2.2) - (assign d M o).2.1
       else if d o c < (assign d M o).2.1 then d o c - (assign d M o).2.1
       else 0) +
      (if o = c then 0 else (assign d M o).2.1) := by
  have hlen : (M.set mIdx c).length = M.length := by simp
  have hcM' : c ∈ M.set mIdx c := mem_set_self M mIdx c hm
  have hMne : M ≠ [] :=
    List.ne_nil_of_length_pos (lt_of_le_of_lt (Nat.zero_le _) hm)
  by_cases hoc : o = c
  · subst hoc
    rw [if_pos rfl, if_pos rfl, assign_of_mem d _ o hcM']
    simp [NOTHING_TO_SWAP]
  rw [if_neg hoc, if_neg hoc]
  by_cases hoM : o ∈ M
  · have ho := assign_of_mem d M o hoM
    have h1 : (assign d M o).1 = posOf M o := by rw [ho]
    have h21 : (assign d M o).2.1 = NOTHING_TO_SWAP := by rw [ho]
    have h22 : (assign d M o).2.2 = none := by rw [ho]
    have hpos := posOf_lt M o hoM
    have hget := posOf_get M o hoM
    by_cases hpm : posOf M o = mIdx
    · subst hpm
      have hcm : c ≠ M.get ⟨posOf M o, hpos⟩ := by
        rw [hget]; exact fun he => hoc he.symm
      have hono : o ∉ M.set (posOf M o) c := by
        have h := not_mem_set M hnd (posOf M o) hpos c hcm
        rwa [hget] at h
      rw [h1, if_pos rfl, h21, h22]
      simp only [minOpt, NOTHING_TO_SWAP, sub_zero, add_zero]
      exact assign_fst_le d _ o hono c hcM'
    · rw [h1, if_neg hpm, h21]
      have hnlt : ¬ (d o c < NOTHING_TO_SWAP) :=
        not_lt.2 (by simpa [NOTHING_TO_SWAP] using hd o c)
      rw [if_neg hnlt]
      have hmem : o ∈ M.set mIdx c := by
        have h := mem_set_of_get M mIdx c (posOf M o) hpos hpm
        rwa [hget] at h
      rw [assign_of_mem d _ o hmem]
      simp [NOTHING_TO_SWAP]
  · have hoM' : o ∉ M.set mIdx c := by
      intro hmem
      rcases eq_or_mem_of_mem_set M mIdx c o hmem with rfl | h
      · exact hoc rfl
      · exact hoM h
    have hidx_lt : (assign d M o).1 < M.length := assign_idx_lt d M o hMne
    have hach := assign_fst_achieved d M o hoM hMne hidx_lt
    by_cases him : (assign d M o).1 = mIdx
    · rw [if_pos him]
      have hcancel : minOpt (d o c) ((assign d M o).2.2) -
          (assign d M o).2.1 + (assign d M o).2.1 =
          minOpt (d o c) ((assign d M o).2.2) := by ring
      rw [hcancel]
      cases hsnd : (assign d M o).2.2 with
      | none =>
        simp only [minOpt]
        exact assign_fst_le d _ o hoM' c hcM'
      | some sq =>
        simp only [minOpt]
        apply le_min
        · exact assign_fst_le d _ o hoM' c hcM'
        · rcases assign_snd_achieved d M o hoM sq hsnd with ⟨j, hj, hne, hgetj⟩
          have hjm : j ≠ mIdx := by rw [← him]; exact hne
          have hmem : M.get ⟨j, hj⟩ ∈ M.set mIdx c :=
            mem_set_of_get M mIdx c j hj hjm
          calc (assign d (M.set mIdx c) o).2.1 ≤ d o (M.get ⟨j, hj⟩) :=
                assign_fst_le d _ o hoM' _ hmem
            _ = sq := hgetj
    · rw [if_neg him]
      by_cases hlt : d o c < (assign d M o).2.1
      · rw [if_pos hlt]
        have hcancel : d o c - (assign d M o).2.1 + (assign d M o).2.1 =
            d o c := by ring
        rw [hcancel]
        exact assign_fst_le d _ o hoM' c hcM'
      · rw [if_neg hlt, zero_add]
        have hmem : M.get ⟨(assign d M o).1, hidx_lt⟩ ∈ M.set mIdx c :=
          mem_set_of_get M mIdx c _ hidx_lt him
        calc (assign d (M.set mIdx c) o).2.1 ≤
              d o (M.get ⟨(assign d M o).1, hidx_lt⟩) :=
              assign_fst_le d _ o hoM' _ hmem
          _ = (assign d M o).2.1 := hach

theorem clusterCost_set_le (d : DistFun) (n : ℕ) (M : List ℕ) (c mIdx : ℕ)
    (hd : ∀ i j, 0 ≤ d i j) (hnd : M.Nodup) (hc : c ∉ M) (hcn : c < n)
    (hm : mIdx < M.length) :
    clusterCost d n (M.set mIdx c) ≤
      clusterCost d n M + calculate_swap_cost d n (syncState d n M) c mIdx := by
  have hcost : calculate_swap_cost d n (syncState d n M) c mIdx =
      (∑ o ∈ Finset.range n, (if o = c then 0
        else if (assign d M o).1 = mIdx then
          minOpt (d o c) ((assign d M o).2.2) - (assign d M o).2.1
        else if d o c < (assign d M o).2.1 then d o c - (assign d M o).2.1
        else 0)) - (assign d M c).2.1 := by
    unfold calculate_swap_cost
    rw [sum_map_range_eq]
    rw [syncState_dFirst_getD d n M c hcn]
    congr 1
    apply Finset.sum_congr rfl
    intro o ho
    have hon : o < n := Finset.mem_range.1 ho
    rw [syncState_labels_getD d n M o hon, syncState_dFirst_getD d n M o hon,
        syncState_dSecond_getD d n M o hon]
  have hA : clusterCost d n (M.set mIdx c) =
      ∑ o ∈ Finset.range n, (assign d (M.set mIdx c) o).2.1 := by
    unfold clusterCost; rw [sum_map_range_eq]
  have hB : clusterCost d n M =
      ∑ o ∈ Finset.range n, (assign d M o).2.1 := by
    unfold clusterCost; rw [sum_map_range_eq]
  have hpt : ∀ o ∈ Finset.range n, (assign d (M.set mIdx c) o).2.1 ≤
      (if o = c then 0
       else if (assign d M o).1 = mIdx then
         minOpt (d o c) ((assign d M o).2.2) - (assign d M o).2.1
       else if d o c < (assign d M o).2.1 then d o c - (assign d M o).2.1
       else 0) + (if o = c then 0 else (assign d M o).2.1) :=
    fun o _ => swap_pointwise_bound d M c mIdx o hd hnd hc hm
  have hsum := Finset.sum_le_sum hpt
  rw [Finset.sum_add_distrib] at hsum
  have hite : (∑ o ∈ Finset.range n,
      (if o = c then 0 else (assign d M o).2.1)) =
      (∑ o ∈ Finset.range n, (assign d M o).2.1) - (assign d M c).2.1 := by
    have hstep : ∀ o, (if o = c then (0:ℚ) else (assign d M o).2.1) =
        (assign d M o).2.1 - (if o = c then (assign d M o).2.1 else 0) := by
      intro o; by_cases h : o = c <;> simp [h]
    rw [Finset.sum_congr rfl (fun o _ => hstep o), Finset.sum_sub_distrib,
        Finset.sum_ite_eq' (Finset.range n) c (fun o => (assign d M o).2.1)]
    simp [Finset.mem_range.2 hcn]
  rw [hite] at hsum
  rw [hA, hB, hcost]
  linarith

theorem swap_step_cost (d : DistFun) (n : ℕ) (M : List ℕ)
    (hd : ∀ i j, 0 ≤ d i j) (hnd : M.Nodup) :
    ((swap_medoids d n (syncState d n M)).2 < 0 →
      clusterCost d n (swap_medoids d n (syncState d n M)).1.medoids ≤
        clusterCost d n M + (swap_medoids d n (syncState d n M)).2) ∧
    clusterCost d n (swap_medoids d n (syncState d n M)).1.medoids ≤
      clusterCost d n M := by
  rcases swap_medoids_eq d n (syncState d n M) with ⟨hnil, heq⟩ |
    ⟨c, m, b, hmem, hb, hall, hcase⟩
  · rw [heq]
    constructor
    · intro h0
      exact absurd h0 (by simp [NOTHING_TO_SWAP])
    · exact le_of_eq rfl
  · rw [syncState_medoids] at hmem
    rcases (mem_swapPairs n M c m).1 hmem with ⟨hcn, hcM, hmlt⟩
    rcases hcase with ⟨hneg, heq⟩ | ⟨hpos, heq⟩
    · have hkey := clusterCost_set_le d n M c m hd hnd hcM hcn hmlt
      rw [← hb] at hkey
      rw [heq]
      constructor
      · intro _
        exact hkey
      · calc clusterCost d n (M.set m c) ≤ clusterCost d n M + b := hkey
          _ ≤ clusterCost d n M := by linarith
    · rw [heq]
      exact ⟨fun h0 => absurd h0 (not_lt.2 hpos), le_of_eq rfl⟩

/- ------------------------------------------------------------------ -/
/- The iteration loop (spec section 4.4).                              -/
/- ------------------------------------------------------------------ -/

theorem kmedoidsLoop_iterations_le (d : DistFun) (n : ℕ) (tol : ℚ) :
    ∀ (fuel : ℕ) (s : KState), (kmedoidsLoop d n tol fuel s).2.1 ≤ fuel := by
  intro fuel
  induction fuel with
  | zero => intro s; simp [kmedoidsLoop]
  | succ fuel ih =>
    intro s
    simp only [kmedoidsLoop]
    split
    · simpa using ih _
    · simp

theorem update_clusters_medoids (d : DistFun) (n : ℕ) (s : KState) :
    (update_clusters d n s).1.medoids = s.medoids := by
  rw [update_clusters_fst, syncState_medoids]

theorem swap_medoids_medoids_inv (d : DistFun) (n : ℕ) (s : KState)
    (h1 : ∀ m ∈ s.medoids, m < n) (h2 : s.medoids.Nodup) :
    (∀ m ∈ (swap_medoids d n s).1.medoids, m < n) ∧
      (swap_medoids d n s).1.medoids.Nodup ∧
      (swap_medoids d n s).1.medoids.length = s.medoids.length := by
  rcases swap_medoids_eq d n s with ⟨_, heq⟩ | ⟨c, m, b, hmem, _, _, hcase⟩
  · rw [heq]; exact ⟨h1, h2, rfl⟩
  · rcases (mem_swapPairs n s.medoids c m).1 hmem with ⟨hcn, hcM, hmlt⟩
    rcases hcase with ⟨_, heq⟩ | ⟨_, heq⟩
    · rw [heq]
      refine ⟨?_, nodup_set s.medoids h2 m c hcM, by simp⟩
      intro x hx
      rcases eq_or_mem_of_mem_set _ _ _ _ hx with rfl | hxm
      · exact hcn
      · exact h1 x hxm
    · rw [heq]; exact ⟨h1, h2, rfl⟩

theorem kmedoidsLoop_medoids_inv (d : DistFun) (n : ℕ) (tol : ℚ) :
    ∀ (fuel : ℕ) (s : KState), (∀ m ∈ s.medoids, m < n) → s.medoids.Nodup →
      (∀ m ∈ (kmedoidsLoop d n tol fuel s).1.medoids, m < n) ∧
      (kmedoidsLoop d n tol fuel s).1.medoids.Nodup ∧
      (kmedoidsLoop d n tol fuel s).1.medoids.length = s.medoids.length := by
  intro fuel
  induction fuel with
  | zero => intro s h1 h2; exact ⟨h1, h2, rfl⟩
  | succ fuel ih =>
    intro s h1 h2
    have hu1 : ∀ m ∈ (update_clusters d n s).1.medoids, m < n := by
      rw [update_clusters_medoids]; exact h1
    have hu2 : (update_clusters d n s).1.medoids.Nodup := by
      rw [update_clusters_medoids]; exact h2
    have hw := swap_medoids_medoids_inv d n (update_clusters d n s).1 hu1 hu2
    simp only [kmedoidsLoop]
    split
    · have hrec := ih (swap_medoids d n (update_clusters d n s).1).1 hw.1 hw.2.1
      refine ⟨hrec.1, hrec.2.1, ?_⟩
      rw [hrec.2.2, hw.2.2, update_clusters_medoids]
    · exact ⟨hw.1, hw.2.1, by rw [hw.2.2, update_clusters_medoids]⟩

/- ------------------------------------------------------------------ -/
/- Congruence: the algorithm queries the distance calculator only at   -/
/- in-range index pairs (spec section 4.1: out-of-range indices are a  -/
/- contract violation that never occurs in a valid run).               -/
/- ------------------------------------------------------------------ -/

theorem assign_congr (d1 d2 : DistFun) (n : ℕ) (M : List ℕ) (o : ℕ)
    (hag : ∀ i j, i < n → j < n → d1 i j = d2 i j)
    (ho : o < n) (hM : ∀ m ∈ M, m < n) :
    assign d1 M o = assign d2 M o := by
  have hmap : M.map (d1 o) = M.map (d2 o) :=
    List.map_congr_left (fun m hm => hag o m ho (hM m hm))
  unfold assign find_appropriate_cluster
  rw [hmap]

theorem update_clusters_congr (d1 d2 : DistFun) (n : ℕ) (s : KState)
    (hag : ∀ i j, i < n → j < n → d1 i j = d2 i j)
    (hM : ∀ m ∈ s.medoids, m < n) :
    update_clusters d1 n s = update_clusters d2 n s := by
  unfold update_clusters
  have hasg : (List.range n).map (fun o => assign d1 s.medoids o) =
      (List.range n).map (fun o => assign d2 s.medoids o) :=
    List.map_congr_left (fun o hh =>
      assign_congr d1 d2 n s.medoids o hag (List.mem_range.1 hh) hM)
  rw [hasg]

theorem calculate_swap_cost_congr (d1 d2 : DistFun) (n : ℕ) (s : KState)
    (cand clIdx : ℕ) (hag : ∀ i j, i < n → j < n → d1 i j = d2 i j)
    (hcand : cand < n) :
    calculate_swap_cost d1 n s cand clIdx =
      calculate_swap_cost d2 n s cand clIdx := by
  unfold calculate_swap_cost
  congr 1
  apply congrArg
  apply List.map_congr_left
  intro o ho
  have hon : o < n := List.mem_range.1 ho
  rw [hag o cand hon hcand]

theorem swap_medoids_congr (d1 d2 : DistFun) (n : ℕ) (s : KState)
    (hag : ∀ i j, i < n → j < n → d1 i j = d2 i j) :
    swap_medoids d1 n s = swap_medoids d2 n s := by
  unfold swap_medoids
  have hfold : (swapPairs n s.medoids).foldl
      (bestStep (fun p => calculate_swap_cost d1 n s p.1 p.2)) none =
      (swapPairs n s.medoids).foldl
      (bestStep (fun p => calculate_swap_cost d2 n s p.1 p.2)) none := by
    apply List.foldl_ext
    intro acc p hp
    have hp' : (p.1, p.2) ∈ swapPairs n s.medoids := by rwa [Prod.mk.eta]
    rcases (mem_swapPairs n s.medoids p.1 p.2).1 hp' with ⟨hp1, _, _⟩
    unfold bestStep
    simp only [calculate_swap_cost_congr d1 d2 n s p.1 p.2 hag hp1]
  rw [hfold]

theorem kmedoidsLoop_congr (d1 d2 : DistFun) (n : ℕ) (tol : ℚ)
    (hag : ∀ i j, i < n → j < n → d1 i j = d2 i j) :
    ∀ (fuel : ℕ) (s : KState), (∀ m ∈ s.medoids, m < n) → s.medoids.Nodup →
      kmedoidsLoop d1 n tol fuel s = kmedoidsLoop d2 n tol fuel s := by
  intro fuel
  induction fuel with
  | zero => intro s _ _; rfl
  | succ fuel ih =>
    intro s h1 h2
    have h1u : ∀ m ∈ (update_clusters d2 n s).1.medoids, m < n := by
      rw [update_clusters_medoids]; exact h1
    have h2u : (update_clusters d2 n s).1.medoids.Nodup := by
      rw [update_clusters_medoids]; exact h2
    have hinv := swap_medoids_medoids_inv d2 n (update_clusters d2 n s).1 h1u h2u
    simp only [kmedoidsLoop]
    rw [update_clusters_congr d1 d2 n s hag h1]
    rw [swap_medoids_congr d1 d2 n (update_clusters d2 n s).1 hag]
    split
    · rw [ih _ hinv.1 hinv.2.1]
    · rfl

theorem runKmedoids_congr (d1 d2 : DistFun) (n : ℕ) (med : List ℕ)
    (tol : ℚ) (itermax : ℕ)
    (hag : ∀ i j, i < n → j < n → d1 i j = d2 i j)
    (h1 : ∀ m ∈ med, m < n) (h2 : med.Nodup) :
    runKmedoids d1 n med tol itermax = runKmedoids d2 n med tol itermax := by
  simp only [runKmedoids]
  have hs0 : ∀ m ∈ (⟨med, List.replicate n 0, List.replicate n 0,
      List.replicate n none⟩ : KState).medoids, m < n := h1
  rw [kmedoidsLoop_congr d1 d2 n tol hag itermax _ hs0 h2]
  have hinv := kmedoidsLoop_medoids_inv d2 n tol itermax
    (⟨med, List.replicate n 0, List.replicate n 0, List.replicate n none⟩ :
      KState) h1 h2
  rw [update_clusters_congr d1 d2 n _ hag hinv.1]

/- ------------------------------------------------------------------ -/
/- Result materialisation.                                             -/
/- ------------------------------------------------------------------ -/

theorem runKmedoids_medoids (d : DistFun) (n : ℕ) (med : List ℕ)
    (tol : ℚ) (itermax : ℕ) :
    (runKmedoids d n med tol itermax).medoids =
      (kmedoidsLoop d n tol itermax
        ⟨med, List.replicate n 0, List.replicate n 0,
         List.replicate n none⟩).1.medoids := by
  simp only [runKmedoids]
  rw [update_clusters_medoids]

theorem runKmedoids_clusters (d : DistFun) (n : ℕ) (med : List ℕ)
    (tol : ℚ) (itermax : ℕ) :
    (runKmedoids d n med tol itermax).clusters =
      makeClusters n
        (kmedoidsLoop d n tol itermax
          ⟨med, List.replicate n 0, List.replicate n 0,
           List.replicate n none⟩).1.medoids.length
        ((syncState d n (kmedoidsLoop d n tol itermax
          ⟨med, List.replicate n 0, List.replicate n 0,
           List.replicate n none⟩).1.medoids).labels) := by
  simp only [runKmedoids]
  rw [update_clusters_fst, syncState_medoids]

theorem runKmedoids_iterations (d : DistFun) (n : ℕ) (med : List ℕ)
    (tol : ℚ) (itermax : ℕ) :
    (runKmedoids d n med tol itermax).iterations =
      (kmedoidsLoop d n tol itermax
        ⟨med, List.replicate n 0, List.replicate n 0,
         List.replicate n none⟩).2.1 := rfl

theorem length_makeClusters (n k : ℕ) (labels : List ℕ) :
    (makeClusters n k labels).length = k := by
  simp [makeClusters]

theorem mem_makeClusters_getD (n k : ℕ) (labels : List ℕ) (o j : ℕ)
    (hj : j < k) :
    o ∈ (makeClusters n k labels).getD j [] ↔
      o < n ∧ labels.getD o k = j := by
  unfold makeClusters
  rw [getD_map_range _ k j [] hj]
  simp [List.mem_filter, List.mem_range]

/- ------------------------------------------------------------------ -/
/- Claim theorems.                                                     -/
/- ------------------------------------------------------------------ -/

/-- C1: for every valid input (non-empty dataset, valid non-empty initial
medoid set, positive max_iterations) the process operation terminates and
performs at most the configured max_iterations assignment/swap
iterations. -/
theorem C1_process_terminates_within_itermax
    (metric : List ℚ → List ℚ → ℚ) (ptype : kmedoids_data_t)
    (data : List (List ℚ)) (med : List ℕ) (tol : ℚ) (itermax : ℕ)
    (hv : validInput ptype data med) (_hpos : 0 < itermax) :
    ∃ r, process metric ptype data med tol itermax = some r ∧
      r.iterations ≤ itermax := by
  unfold process
  rw [if_pos hv]
  refine ⟨_, rfl, ?_⟩
  rw [runKmedoids_iterations]
  exact kmedoidsLoop_iterations_le _ _ _ itermax _

/-- Witness for C1: the four-element singleton configuration is valid, the
iteration budget is positive, and the run finishes within it. -/
theorem C1_witness :
    (validInput kmedoids_data_t.POINTS [[(0:ℚ)]] [0] ∧ 0 < 1) ∧
    ∃ r, process euclidean_square kmedoids_data_t.POINTS [[(0:ℚ)]] [0] 1 1 =
      some r ∧ r.iterations ≤ 1 :=
  ⟨⟨by decide, by decide⟩,
   C1_process_terminates_within_itermax euclidean_square
     kmedoids_data_t.POINTS [[(0:ℚ)]] [0] 1 1 (by decide) (by decide)⟩

/-- C2: in a state freshly produced by the assignment pass, a swap committed
by swap_medoids (returned cost below 0) strictly lowers the total clustering
cost, and the total clustering cost never increases from one iteration's
medoid sequence to the next. -/
theorem C2_swap_improves_and_cost_nonincreasing (d : DistFun) (n : ℕ)
    (s : KState) (hd : ∀ i j, 0 ≤ d i j) (hnd : s.medoids.Nodup) :
    ((swap_medoids d n (update_clusters d n s).1).2 < 0 →
      clusterCost d n (swap_medoids d n (update_clusters d n s).1).1.medoids <
        clusterCost d n (update_clusters d n s).1.medoids) ∧
    clusterCost d n (swap_medoids d n (update_clusters d n s).1).1.medoids ≤
      clusterCost d n (update_clusters d n s).1.medoids := by
  rw [update_clusters_fst]
  rcases swap_step_cost d n s.medoids hd hnd with ⟨hstrict, hle⟩
  rw [syncState_medoids]
  exact ⟨fun h => lt_of_le_of_lt (hstrict h) (by linarith), hle⟩

/-- Witness for C2: a nonnegative calculator over a singleton medoid
sequence without duplicates satisfies the hypotheses. -/
theorem C2_witness :
    ((∀ i j, 0 ≤ constZeroCalc i j) ∧ ([0] : List ℕ).Nodup) ∧
    (((swap_medoids constZeroCalc 1
        (update_clusters constZeroCalc 1
          (⟨[0], [0], [0], [none]⟩ : KState)).1).2 < 0 →
      clusterCost constZeroCalc 1
          (swap_medoids constZeroCalc 1
            (update_clusters constZeroCalc 1
              (⟨[0], [0], [0], [none]⟩ : KState)).1).1.medoids <
        clusterCost constZeroCalc 1
          (update_clusters constZeroCalc 1
            (⟨[0], [0], [0], [none]⟩ : KState)).1.medoids) ∧
    clusterCost constZeroCalc 1
        (swap_medoids constZeroCalc 1
          (update_clusters constZeroCalc 1
            (⟨[0], [0], [0], [none]⟩ : KState)).1).1.medoids ≤
      clusterCost constZeroCalc 1
        (update_clusters constZeroCalc 1
          (⟨[0], [0], [0], [none]⟩ : KState)).1.medoids) :=
  ⟨⟨fun _ _ => le_refl 0, by decide⟩,
   C2_swap_improves_and_cost_nonincreasing constZeroCalc 1
     (⟨[0], [0], [0], [none]⟩ : KState) (fun _ _ => le_refl 0) (by decide)⟩

/-- C3: swap_medoids returns the minimum swap cost over the whole candidate
grid, commits the first-encountered pair achieving it exactly when that
minimum is below 0, and leaves the state (in particular the medoid sequence)
completely unchanged when the minimum is at least 0. -/
theorem C3_swap_commits_iff_negative_minimum (d : DistFun) (n : ℕ)
    (s : KState) :
    (∀ p ∈ swapPairs n s.medoids,
      (swap_medoids d n s).2 ≤ calculate_swap_cost d n s p.1 p.2) ∧
    ((swap_medoids d n s).2 < 0 →
      ∃ c m, (c, m) ∈ swapPairs n s.medoids ∧
        calculate_swap_cost d n s c m = (swap_medoids d n s).2 ∧
        (swap_medoids d n s).1.medoids = s.medoids.set m c) ∧
    (0 ≤ (swap_medoids d n s).2 → (swap_medoids d n s).1 = s) := by
  rcases swap_medoids_eq d n s with ⟨hnil, heq⟩ | ⟨c, m, b, hmem, hb, hall, hcase⟩
  · rw [heq]
    refine ⟨?_, ?_, fun _ => rfl⟩
    · intro p hp; rw [hnil] at hp; cases hp
    · intro h0; exact absurd h0 (by simp [NOTHING_TO_SWAP])
  · rcases hcase with ⟨hneg, heq⟩ | ⟨hpos, heq⟩
    · rw [heq]
      exact ⟨hall, fun _ => ⟨c, m, hmem, hb.symm, rfl⟩,
        fun h0 => absurd hneg (not_lt.2 h0)⟩
    · rw [heq]
      exact ⟨hall, fun h0 => absurd h0 (not_lt.2 hpos), fun _ => rfl⟩

/-- C4: process rejects an invalid configuration (empty dataset, empty
initial medoid set, an out-of-range medoid index, or DISTANCE_MATRIX mode
with a non-square input) before any iteration runs and produces no result. -/
theorem C4_invalid_input_rejected (metric : List ℚ → List ℚ → ℚ)
    (ptype : kmedoids_data_t) (data : List (List ℚ)) (med : List ℕ)
    (tol : ℚ) (itermax : ℕ)
    (h : data = [] ∨ med = [] ∨ (∃ m ∈ med, data.length ≤ m) ∨
      (ptype = kmedoids_data_t.DISTANCE_MATRIX ∧
        ∃ row ∈ data, row.length ≠ data.length)) :
    process metric ptype data med tol itermax = none := by
  have hnv : ¬ validInput ptype data med := by
    rintro ⟨h1, h2, h3, _, h5⟩
    rcases h with he | he | ⟨m, hm, hge⟩ | ⟨hp, row, hrow, hne⟩
    · exact h1 he
    · exact h2 he
    · exact absurd (h3 m hm) (not_lt.2 hge)
    · exact hne (h5 hp row hrow)
  unfold process
  rw [if_neg hnv]

/-- Witness for C4: an empty dataset is rejected. -/
theorem C4_witness :
    (([] : List (List ℚ)) = [] ∨ ([0] : List ℕ) = [] ∨
      (∃ m ∈ ([0] : List ℕ), ([] : List (List ℚ)).length ≤ m) ∨
      (kmedoids_data_t.POINTS = kmedoids_data_t.DISTANCE_MATRIX ∧
        ∃ row ∈ ([] : List (List ℚ)),
          row.length ≠ ([] : List (List ℚ)).length)) ∧
    process euclidean_square kmedoids_data_t.POINTS [] [0] 1 1 = none :=
  ⟨Or.inl rfl,
   C4_invalid_input_rejected euclidean_square kmedoids_data_t.POINTS [] [0]
     1 1 (Or.inl rfl)⟩

/-- C7: after an assignment pass, for every object the cached distance to
the nearest medoid is at most the cached distance to the second-nearest
medoid, and an object that is itself a medoid holds the sentinel distance 0
in its nearest-medoid cache entry. -/
theorem C7_distance_cache_invariant (d : DistFun) (n : ℕ) (s : KState)
    (o : ℕ) (ho : o < n) :
    (∀ q, (update_clusters d n s).1.dSecond.getD o none = some q →
      (update_clusters d n s).1.dFirst.getD o 0 ≤ q) ∧
    (o ∈ s.medoids → (update_clusters d n s).1.dFirst.getD o 0 = 0) := by
  rw [update_clusters_fst]
  constructor
  · intro q hq
    rw [syncState_dFirst_getD d n s.medoids o ho 0]
    rw [syncState_dSecond_getD d n s.medoids o ho none] at hq
    exact assign_fst_le_snd d s.medoids o q hq
  · intro hmem
    rw [syncState_dFirst_getD d n s.medoids o ho 0, assign_of_mem d _ o hmem]
    rfl

/-- Witness for C7: object 0 of a one-object state. -/
theorem C7_witness :
    0 < 1 ∧
    ((∀ q, (update_clusters constZeroCalc 1
        (⟨[0], [0], [0], [none]⟩ : KState)).1.dSecond.getD 0 none = some q →
      (update_clusters constZeroCalc 1
        (⟨[0], [0], [0], [none]⟩ : KState)).1.dFirst.getD 0 0 ≤ q) ∧
    (0 ∈ (⟨[0], [0], [0], [none]⟩ : KState).medoids →
      (update_clusters constZeroCalc 1
        (⟨[0], [0], [0], [none]⟩ : KState)).1.dFirst.getD 0 0 = 0)) :=
  ⟨by decide,
   C7_distance_cache_invariant constZeroCalc 1
     (⟨[0], [0], [0], [none]⟩ : KState) 0 (by decide)⟩

unseal Rat.add Rat.sub Rat.mul Rat.inv in
/-- C8 counterexample: with the medoid sequence [2, 0] over the 1-D points
0, 1, 2, object 1 is at equal minimum distance from medoid 2 and medoid 0,
and it is assigned to cluster position 0, whose medoid is object 2 — not to
the tied medoid with the lowest index, which is 0. -/
theorem C8_lowest_index_counterexample :
    (assign (create_distance_calculator kmedoids_data_t.POINTS
      euclidean_square [[0], [1], [2]]) [2, 0] 1).1 = 0 ∧
    ([2, 0] : List ℕ).getD 0 0 = 2 ∧
    create_distance_calculator kmedoids_data_t.POINTS euclidean_square
      [[0], [1], [2]] 1 2 =
      create_distance_calculator kmedoids_data_t.POINTS euclidean_square
        [[0], [1], [2]] 1 0 ∧
    (0 : ℕ) ∈ ([2, 0] : List ℕ) ∧ (2 : ℕ) ≠ 0 := by
  decide

/-- C8 (amended): in an assignment pass a non-medoid object is assigned to
the first medoid encountered in medoid-set iteration order among those at
minimum distance (the lowest medoid-set position, which equals the lowest
medoid index only when the medoid sequence is sorted); the choice is a pure
function of the input, hence identical across reruns. -/
theorem C8_tie_broken_by_first_encountered (d : DistFun) (M : List ℕ)
    (o : ℕ) (ho : o ∉ M) (hM : M ≠ []) :
    (∃ h : (assign d M o).1 < M.length,
      d o (M.get ⟨(assign d M o).1, h⟩) = (assign d M o).2.1) ∧
    (∀ j (hj : j < M.length),
      d o (M.get ⟨j, hj⟩) = (assign d M o).2.1 → (assign d M o).1 ≤ j) := by
  refine ⟨⟨assign_idx_lt d M o hM, assign_fst_achieved d M o ho hM _⟩, ?_⟩
  intro j hj hval
  exact assign_fst_first d M o ho j hj hval

/-- Witness for C8: object 1 against the medoid sequence [2, 0]. -/
theorem C8_witness :
    ((1 : ℕ) ∉ ([2, 0] : List ℕ) ∧ ([2, 0] : List ℕ) ≠ []) ∧
    ((∃ h : (assign constZeroCalc [2, 0] 1).1 < ([2, 0] : List ℕ).length,
      constZeroCalc 1 (([2, 0] : List ℕ).get
        ⟨(assign constZeroCalc [2, 0] 1).1, h⟩) =
        (assign constZeroCalc [2, 0] 1).2.1) ∧
    (∀ j (hj : j < ([2, 0] : List ℕ).length),
      constZeroCalc 1 (([2, 0] : List ℕ).get ⟨j, hj⟩) =
        (assign constZeroCalc [2, 0] 1).2.1 →
      (assign constZeroCalc [2, 0] 1).1 ≤ j)) :=
  ⟨⟨by decide, by decide⟩,
   C8_tie_broken_by_first_encountered constZeroCalc [2, 0] 1
     (by decide) (by decide)⟩

unseal Rat.add Rat.sub Rat.mul Rat.inv in
/-- C9: on the four 2-D points (0,0), (1,0), (10,10), (11,10) with initial
medoids 0 and 2, the squared-Euclidean metric, tolerance 0.001 and
max_iterations 100, process converges to the clusters 0,1 and 2,3 with
final medoids 0 and 2 and total cost exactly 2. -/
theorem C9_concrete_scenario :
    process euclidean_square kmedoids_data_t.POINTS
      [[0, 0], [1, 0], [10, 10], [11, 10]] [0, 2] (1 / 1000) 100 =
      some { clusters := [[0, 1], [2, 3]], medoids := [0, 2],
             total_deviation := 2, iterations := 2, converged := true } := by
  decide

/-- C5: running process on a point dataset in POINTS mode and on its exact
induced distance matrix in DISTANCE_MATRIX mode with the same initial
medoids, tolerance and max_iterations produces identical clustering
results. -/
theorem C5_representation_equivalence (metric : List ℚ → List ℚ → ℚ)
    (data Mx : List (List ℚ)) (med : List ℕ) (tol : ℚ) (itermax : ℕ)
    (hn : Mx.length = data.length)
    (hrow : ∀ row ∈ Mx, row.length = Mx.length)
    (hentry : ∀ i j, i < data.length → j < data.length →
      (Mx.getD i []).getD j 0 = metric (data.getD i []) (data.getD j [])) :
    process metric kmedoids_data_t.POINTS data med tol itermax =
      process metric kmedoids_data_t.DISTANCE_MATRIX Mx med tol itermax := by
  have hvalid : validInput kmedoids_data_t.POINTS data med ↔
      validInput kmedoids_data_t.DISTANCE_MATRIX Mx med := by
    unfold validInput
    constructor
    · rintro ⟨h1, h2, h3, h4, _⟩
      refine ⟨?_, h2, ?_, h4, fun _ => hrow⟩
      · intro he
        apply h1
        have hlen : data.length = 0 := by rw [← hn, he]; rfl
        exact List.length_eq_zero.1 hlen
      · intro m hm; rw [hn]; exact h3 m hm
    · rintro ⟨h1, h2, h3, h4, _⟩
      refine ⟨?_, h2, ?_, h4, ?_⟩
      · intro he
        apply h1
        have hlen : Mx.length = 0 := by rw [hn, he]; rfl
        exact List.length_eq_zero.1 hlen
      · intro m hm; rw [← hn]; exact h3 m hm
      · intro hp; exact absurd hp (by decide)
  unfold process
  by_cases hv : validInput kmedoids_data_t.POINTS data med
  · rw [if_pos hv, if_pos (hvalid.1 hv)]
    obtain ⟨h1, h2, h3, h4, _⟩ := hv
    have hag : ∀ i j, i < data.length → j < data.length →
        create_distance_calculator kmedoids_data_t.POINTS metric data i j =
        create_distance_calculator kmedoids_data_t.DISTANCE_MATRIX metric
          Mx i j := by
      intro i j hi hj
      simp only [create_distance_calculator]
      exact (hentry i j hi hj).symm
    rw [hn]
    exact congrArg some
      (runKmedoids_congr _ _ data.length med tol itermax hag h3 h4)
  · rw [if_neg hv, if_neg (fun hv2 => hv (hvalid.2 hv2))]

unseal Rat.add Rat.sub Rat.mul Rat.inv in
/-- Witness for C5: the one-point dataset and its induced 1-by-1 distance
matrix. -/
theorem C5_witness :
    (([[(0:ℚ)]] : List (List ℚ)).length =
       ([[(0:ℚ)]] : List (List ℚ)).length ∧
     (∀ row ∈ ([[(0:ℚ)]] : List (List ℚ)),
       row.length = ([[(0:ℚ)]] : List (List ℚ)).length) ∧
     (∀ i j, i < ([[(0:ℚ)]] : List (List ℚ)).length →
       j < ([[(0:ℚ)]] : List (List ℚ)).length →
       (([[(0:ℚ)]] : List (List ℚ)).getD i []).getD j 0 =
         euclidean_square (([[(0:ℚ)]] : List (List ℚ)).getD i [])
           (([[(0:ℚ)]] : List (List ℚ)).getD j []))) ∧
    process euclidean_square kmedoids_data_t.POINTS [[(0:ℚ)]] [0] 1 1 =
      process euclidean_square kmedoids_data_t.DISTANCE_MATRIX [[(0:ℚ)]]
        [0] 1 1 :=
  ⟨⟨rfl, by decide,
    by
      intro i j hi hj
      have hi0 : i = 0 := Nat.lt_one_iff.1 (by simpa using hi)
      have hj0 : j = 0 := Nat.lt_one_iff.1 (by simpa using hj)
      subst hi0; subst hj0; decide⟩,
   C5_representation_equivalence euclidean_square [[(0:ℚ)]] [[(0:ℚ)]] [0] 1 1
     rfl (by decide)
     (by
      intro i j hi hj
      have hi0 : i = 0 := Nat.lt_one_iff.1 (by simpa using hi)
      have hj0 : j = 0 := Nat.lt_one_iff.1 (by simpa using hj)
      subst hi0; subst hj0; decide)⟩

/-- C6: after every successful process call every final medoid index is a
valid dataset index, the final medoid sequence has no duplicates, and every
dataset object appears in exactly one cluster of the result. -/
theorem C6_result_wellformed (metric : List ℚ → List ℚ → ℚ)
    (ptype : kmedoids_data_t) (data : List (List ℚ)) (med : List ℕ)
    (tol : ℚ) (itermax : ℕ) (r : KmedoidsResult)
    (h : process metric ptype data med tol itermax = some r) :
    (∀ m ∈ r.medoids, m < data.length) ∧ r.medoids.Nodup ∧
    ∀ o < data.length, ∃! j, j < r.clusters.length ∧
      o ∈ r.clusters.getD j [] := by
  unfold process at h
  by_cases hv : validInput ptype data med
  case neg => rw [if_neg hv] at h; cases h
  rw [if_pos hv] at h
  have hr := Option.some.inj h
  subst hr
  obtain ⟨hne, hmedne, hbound, hnodup, _⟩ := hv
  have hinv := kmedoidsLoop_medoids_inv
    (create_distance_calculator ptype metric data) data.length tol itermax
    ⟨med, List.replicate data.length 0, List.replicate data.length 0,
     List.replicate data.length none⟩ hbound hnodup
  rw [runKmedoids_medoids, runKmedoids_clusters]
  set Mf := (kmedoidsLoop (create_distance_calculator ptype metric data)
    data.length tol itermax
    ⟨med, List.replicate data.length 0, List.replicate data.length 0,
     List.replicate data.length none⟩).1.medoids with hMf
  have hMfne : Mf ≠ [] := by
    intro he
    apply hmedne
    apply List.length_eq_zero.1
    rw [← hinv.2.2, he]
    rfl
  refine ⟨hinv.1, hinv.2.1, ?_⟩
  intro o ho
  refine ⟨(assign (create_distance_calculator ptype metric data) Mf o).1,
    ⟨?_, ?_⟩, ?_⟩
  · rw [length_makeClusters]
    exact assign_idx_lt _ Mf o hMfne
  · rw [mem_makeClusters_getD _ _ _ o _
      (assign_idx_lt (create_distance_calculator ptype metric data) Mf o
        hMfne)]
    exact ⟨ho, syncState_labels_getD _ data.length Mf o ho _⟩
  · rintro j ⟨hjl, hjm⟩
    rw [length_makeClusters] at hjl
    rw [mem_makeClusters_getD _ _ _ o j hjl] at hjm
    rcases hjm with ⟨_, hlab⟩
    rw [syncState_labels_getD _ data.length Mf o ho] at hlab
    exact hlab.symm

unseal Rat.add Rat.sub Rat.mul Rat.inv in
/-- Witness for C6: a successful run on the one-point dataset. -/
theorem C6_witness :
    process euclidean_square kmedoids_data_t.POINTS [[(0:ℚ)]] [0] 1 1 =
      some singletonResult ∧
    ((∀ m ∈ singletonResult.medoids, m < ([[(0:ℚ)]] : List (List ℚ)).length) ∧
      singletonResult.medoids.Nodup ∧
      ∀ o < ([[(0:ℚ)]] : List (List ℚ)).length, ∃! j,
        j < singletonResult.clusters.length ∧
        o ∈ singletonResult.clusters.getD j []) :=
  ⟨by decide,
   C6_result_wellformed euclidean_square kmedoids_data_t.POINTS [[(0:ℚ)]]
     [0] 1 1 singletonResult (by decide)⟩

/-- C10: a default-constructed appropriate_cluster carries the sentinel
cluster index INVALID_INDEX and the distance value -1, a negative value
outside the non-negative distance domain, so an unset assignment is
distinguishable from every real assignment. -/
theorem C10_default_appropriate_cluster :
    appropriate_cluster.mkDefault.m_index = INVALID_INDEX ∧
    appropriate_cluster.mkDefault.m_distance_to_medoid = -1 ∧
    appropriate_cluster.mkDefault.m_distance_to_medoid < 0 := by
  refine ⟨rfl, rfl, ?_⟩
  norm_num [appropriate_cluster.mkDefault]

end Pyclustering
